import Mathlib

/-!
Verification of the audio-driven viseme detection engine against its
natural-language specification.

The development shallowly embeds the relevant modules of the repository:

* `parameters.mjs`  — compile-time constants (embedded as definitions below);
* `classifier.mjs`  — `Classifier`: Mahalanobis distances, silence
  sensitivity, majority vote over a 6-entry prediction ring, and the
  silence-suppression rule;
* `vadgate.mjs`     — `VadGate`: the hysteresis voice-activity state machine;
* the worklet `Processor` — `update` (live parameter updates) and
  `_onmessage` (control messages, speech-boundary events);
* the offline `Training` class — `computePrototype` (mean / covariance /
  Cholesky pipeline and its failure modes), the binary record layout
  (`bin` buffer, `decodeBinaryRecord`) and the record-slicing loop of
  `loadModel`;
* the `'calibrated'` handler of `headaudio.mjs`.

Numeric modelling: JavaScript float arithmetic is idealised as exact
rational arithmetic (`ℚ`); `Math.sqrt` in the trainer is an explicit
function parameter of the Cholesky routine.  Binary serialisation is
modelled exactly at the byte level, with float32 values represented by
their 32-bit words (bit patterns), so round-trip statements are
bit-precise.  Loops (`for (i...)`) are embedded as folds over
`List.range`; fixed-size JS arrays become Lean lists accessed with
`List.getD` (all vectors in scope have their nominal lengths).
-/

/-! ## Parameters (`parameters.mjs`) -/

def AUDIO_SAMPLE_RATE : ℕ := 16000

def MFCC_SAMPLES_N : ℕ := 512

def MFCC_SAMPLES_HOP : ℕ := 256

def MFCC_COEFF_N : ℕ := 12

def MFCC_DELTAS_ENABLED : Bool := false

def MFCC_DELTA_DELTAS_ENABLED : Bool := false

def MFCC_COEFF_N_WITH_DELTAS : ℕ :=
  MFCC_COEFF_N * (if MFCC_DELTAS_ENABLED then (if MFCC_DELTA_DELTAS_ENABLED then 3 else 2) else 1)

def MODEL_VISEMES_N : ℕ := 15

def MODEL_VISEME_SIL : ℕ := 14

def RECORD_HEADER_OFFSET : ℕ := 0

def RECORD_HEADER_LEN : ℕ := 2

def RECORD_MU_OFFSET : ℕ := RECORD_HEADER_LEN * 4

def RECORD_MU_LEN : ℕ := MFCC_COEFF_N_WITH_DELTAS

def RECORD_SIGMAINVLOWER_OFFSET : ℕ := RECORD_MU_OFFSET + RECORD_MU_LEN * 4

def RECORD_SIGMAINVLOWER_LEN : ℕ :=
  MFCC_COEFF_N_WITH_DELTAS * (MFCC_COEFF_N_WITH_DELTAS + 1) / 2

def RECORD_OFFSET : ℕ := RECORD_SIGMAINVLOWER_OFFSET + RECORD_SIGMAINVLOWER_LEN * 4

def RECORD_LEN : ℕ := RECORD_HEADER_LEN + RECORD_MU_LEN + RECORD_SIGMAINVLOWER_LEN

/-! ## Summation helper

JS `for` loops accumulating a sum are embedded as left folds over
`List.range`. -/

def sumR (n : ℕ) (f : ℕ → ℚ) : ℚ :=
  (List.range n).foldl (fun a k => a + f k) 0

theorem foldl_add_shift (l : List ℕ) (f : ℕ → ℚ) (a : ℚ) :
    l.foldl (fun a k => a + f k) a = a + l.foldl (fun a k => a + f k) 0 := by
  induction l generalizing a with
  | nil => simp
  | cons x xs ih =>
      simp only [List.foldl_cons]
      rw [ih, ih (0 + f x)]
      ring

theorem sumR_zero (f : ℕ → ℚ) : sumR 0 f = 0 := rfl

theorem sumR_succ (n : ℕ) (f : ℕ → ℚ) : sumR (n + 1) f = sumR n f + f n := by
  simp only [sumR, List.range_succ, List.foldl_append, List.foldl_cons, List.foldl_nil]

theorem sumR_congr (n : ℕ) (f g : ℕ → ℚ) (h : ∀ k, f k = g k) : sumR n f = sumR n g :=
  congrArg (sumR n) (funext h)

/-! ## Lower-triangular index lookup

`_buildSigmaInvLowerLookup` (identical in `classifier.mjs` and the
trainer) assigns a running index to the pairs `(i, j)`, `j ≤ i`, scanned
row-major (`i` outer ascending, `j` inner ascending), and mirrors the
entry to `(j, i)`.  `lowerPairs` is that scan order; the index of a pair
is its position in the scan. -/

def lowerPairs : List (ℕ × ℕ) :=
  (List.range MFCC_COEFF_N_WITH_DELTAS).flatMap
    (fun i => (List.range (i + 1)).map (fun j => (i, j)))

def sigmaLowerIndex (i j : ℕ) : ℕ :=
  lowerPairs.indexOf (if j ≤ i then (i, j) else (j, i))

/-! ## Classifier (`classifier.mjs`) -/

structure Prototype where
  phoneme : List ℕ
  group : ℕ
  viseme : ℕ
  mu : List ℚ
  sigmaInvLower : List ℚ
  deriving Repr, DecidableEq, Inhabited

structure Classifier where
  prototypes : List Prototype
  ringBuf : List ℕ
  ringTail : ℕ
  predictionLast : ℕ
  silSensitivity : ℚ
  deriving Repr, DecidableEq

/-- Constructor state: empty model, prediction ring of capacity 6
pre-filled with the silence viseme, `predictionLast` = silence. -/
def Classifier.init (silSensitivity : ℚ) : Classifier :=
  { prototypes := []
    ringBuf := List.replicate 6 MODEL_VISEME_SIL
    ringTail := 0
    predictionLast := MODEL_VISEME_SIL
    silSensitivity := silSensitivity }

/-- `Classifier.update`: the only key the loop matches is the literal
string `"silSentivity"` (sic, as written in the source). -/
def Classifier.update (cs : Classifier) (options : List (String × ℚ)) : Classifier :=
  options.foldl
    (fun cs nv => if nv.fst = ("silSentivity") then { cs with silSensitivity := nv.snd } else cs)
    cs

/-- `Classifier.import`: when any incoming prototype carries a group,
prototypes whose group occurs among the incoming groups are filtered
out, then the new prototypes are appended.  (In the source every
record produced by the trainer has a `group` field.) -/
def Classifier.importModel (cs : Classifier) (reset : Bool) (model : List Prototype) :
    Classifier :=
  let cs := if reset then { cs with prototypes := [] } else cs
  let groups : List ℕ := model.map (fun p => p.group)
  let protos :=
    if groups.isEmpty then cs.prototypes
    else cs.prototypes.filter (fun x => !(groups.contains x.group))
  { cs with prototypes := protos ++ model }

/-- `distanceMahalanobis`: diff computed once, then for each row `i` the
inner sum starts from the diagonal term and accumulates the doubled
cross terms for `j < i`. -/
def distanceMahalanobis (v mu sigmaInvLower : List ℚ) : ℚ :=
  let diff : ℕ → ℚ := fun i => v.getD i 0 - mu.getD i 0
  sumR MFCC_COEFF_N_WITH_DELTAS (fun i =>
    (List.range i).foldl
      (fun s j => s + 2 * sigmaInvLower.getD (sigmaLowerIndex i j) 0 * diff i * diff j)
      (sigmaInvLower.getD (sigmaLowerIndex i i) 0 * diff i * diff i))

/-- The claim's formula, stated in its own words: the sum over `i` of
the diagonal term `Σ⁻¹[i,i]·diff[i]²` plus, for every `j < i`, the
doubled cross term `2·Σ⁻¹[i,j]·diff[i]·diff[j]`. -/
def specMahalanobis (v mu sigmaInvLower : List ℚ) : ℚ :=
  let diff : ℕ → ℚ := fun i => v.getD i 0 - mu.getD i 0
  sumR MFCC_COEFF_N_WITH_DELTAS (fun i =>
    sigmaInvLower.getD (sigmaLowerIndex i i) 0 * diff i * diff i
      + sumR i (fun j => 2 * sigmaInvLower.getD (sigmaLowerIndex i j) 0 * diff i * diff j))

theorem distanceMahalanobis_eq_spec (v mu sig : List ℚ) :
    distanceMahalanobis v mu sig = specMahalanobis v mu sig := by
  simp only [distanceMahalanobis, specMahalanobis]
  exact sumR_congr _ _ _ (fun i => foldl_add_shift _ _ _)

/-- Per-prototype recorded distance: the Mahalanobis distance, divided by
`silSensitivity` when the prototype's viseme is the silence viseme. -/
def adjustedDistance (sens : ℚ) (v : List ℚ) (p : Prototype) : ℚ :=
  let d := distanceMahalanobis v p.mu p.sigmaInvLower
  if p.viseme = MODEL_VISEME_SIL then d / sens else d

/-- The `distances` array written by `predict`. -/
def Classifier.distancesOf (cs : Classifier) (v : List ℚ) : List ℚ :=
  cs.prototypes.map (adjustedDistance cs.silSensitivity v)

/-- The min-scan of `predict`: `minD` starts at `Infinity` (modelled as
`none`, against which every finite distance compares `≤`), `minP` at 0;
`d <= minD` updates both. -/
def minScan (ds : List ℚ) : Option ℚ × ℕ :=
  (List.range ds.length).foldl
    (fun acc i =>
      let d := ds.getD i 0
      match acc.fst with
      | none => (some d, i)
      | some m => if d ≤ m then (some d, i) else acc)
    (none, 0)

/-- The raw (pre-vote) viseme of the hop: `prototypes[minP].viseme`. -/
def Classifier.rawViseme (cs : Classifier) (v : List ℚ) : ℕ :=
  (cs.prototypes.getD (minScan (cs.distancesOf v)).snd default).viseme

/-- `RingBuffer.add` on the always-full capacity-6 prediction ring:
overwrite the slot at `tail`, advance `tail` mod 6. -/
def ringAdd (buf : List ℕ) (tail item : ℕ) : List ℕ × ℕ :=
  (buf.set tail item, (tail + 1) % 6)

/-- The per-viseme counts: the counting loop increments `counts[b]` once
per ring entry `b`, so `counts[i]` is the multiplicity of `i` in the
ring buffer. -/
def countsOf (buf : List ℕ) (i : ℕ) : ℕ := buf.count i

/-- The majority-vote scan: `viseme = 0`, `maxCount = 0`, then for each
`i < MODEL_VISEMES_N` in ascending order, `counts[i] >= maxCount`
replaces both. -/
def voteScan (counts : ℕ → ℕ) : ℕ × ℕ :=
  (List.range MODEL_VISEMES_N).foldl
    (fun acc i => if counts i ≥ acc.snd then (i, counts i) else acc)
    (0, 0)

/-- The majority-vote result of the hop: the raw viseme is pushed into
the prediction ring and the vote scan is taken over the updated ring's
counts.  (A named definition for the local `viseme` variable of
`predict` after the vote loop.) -/
def Classifier.majorityOf (cs : Classifier) (v : List ℚ) : ℕ :=
  (voteScan (countsOf ((ringAdd cs.ringBuf cs.ringTail (cs.rawViseme v)).fst))).fst

/-- `Classifier.predict`.  Returns `((viseme, distances), new state)`:
with an empty model it returns `(null, [])` without touching any state;
otherwise it records adjusted distances, pushes the arg-min prototype's
viseme into the prediction ring, takes the majority vote
(`majorityOf`), and applies the repeated-silence suppression rule. -/
def Classifier.predict (cs : Classifier) (v : List ℚ) :
    (Option ℕ × List ℚ) × Classifier :=
  if cs.prototypes.length = 0 then ((none, []), cs)
  else if cs.majorityOf v = cs.predictionLast ∧ cs.majorityOf v = MODEL_VISEME_SIL then
    ((none, cs.distancesOf v),
     { cs with ringBuf := (ringAdd cs.ringBuf cs.ringTail (cs.rawViseme v)).fst,
               ringTail := (ringAdd cs.ringBuf cs.ringTail (cs.rawViseme v)).snd })
  else
    ((some (cs.majorityOf v), cs.distancesOf v),
     { cs with ringBuf := (ringAdd cs.ringBuf cs.ringTail (cs.rawViseme v)).fst,
               ringTail := (ringAdd cs.ringBuf cs.ringTail (cs.rawViseme v)).snd,
               predictionLast := cs.majorityOf v })

/-! ## VAD gate (`vadgate.mjs`)

Counters are naturals (they are only ever incremented by 1, decremented
when positive, or reset); thresholds are rationals (dB / 10).  The frame
counts are kept as rationals because `VadGate.update` stores the raw
ms-to-frames conversion without the constructor's `max(1, round(...))`;
the debounce comparisons `preX >= xFrames` therefore compare a natural
(cast) against a rational, exactly as the JS number comparison does. -/

structure VadGate where
  activeLE : ℚ
  activeFrames : ℚ
  inactiveLE : ℚ
  inactiveFrames : ℚ
  active : ℕ
  inactive : ℕ
  preActive : ℕ
  preInactive : ℕ
  deriving Repr, DecidableEq

/-- `VadGate` constructor: thresholds are dB/10; debounce durations are
converted from ms to hop counts with `max(1, round(ms·(rate/hop)/1000))`;
counters start Inactive (`active = 0`, `inactive = 1`). -/
def VadGate.init (vadGateActiveDb vadGateActiveMs vadGateInactiveDb vadGateInactiveMs : ℚ) :
    VadGate :=
  { activeLE := vadGateActiveDb / 10
    activeFrames :=
      ((max 1 (round (vadGateActiveMs * ((AUDIO_SAMPLE_RATE : ℚ) / (MFCC_SAMPLES_HOP : ℚ)) / 1000)) : ℤ) : ℚ)
    inactiveLE := vadGateInactiveDb / 10
    inactiveFrames :=
      ((max 1 (round (vadGateInactiveMs * ((AUDIO_SAMPLE_RATE : ℚ) / (MFCC_SAMPLES_HOP : ℚ)) / 1000)) : ℤ) : ℚ)
    active := 0
    inactive := 1
    preActive := 0
    preInactive := 0 }

/-- `VadGate.update`: live updates store `value / 10` for thresholds and
the raw ms-to-frames conversion (no rounding, no `max`) for durations. -/
def VadGate.update (g : VadGate) (options : List (String × ℚ)) : VadGate :=
  options.foldl
    (fun g nv =>
      match nv.fst with
      | "vadGateActiveDb" => { g with activeLE := nv.snd / 10 }
      | "vadGateActiveMs" =>
          { g with activeFrames := nv.snd * ((AUDIO_SAMPLE_RATE : ℚ) / (MFCC_SAMPLES_HOP : ℚ)) / 1000 }
      | "vadGateInactiveDb" => { g with inactiveLE := nv.snd / 10 }
      | "vadGateInactiveMs" =>
          { g with inactiveFrames := nv.snd * ((AUDIO_SAMPLE_RATE : ℚ) / (MFCC_SAMPLES_HOP : ℚ)) / 1000 }
      | _ => g)
    g

/-- `VadGate.process`: `if (this.active)` is JS truthiness, i.e.
`active ≠ 0`.  In the Active branch `active++`; a qualifying quiet hop
increments `preInactive` and, once `preInactive >= inactiveFrames`,
resets to Inactive (`active = 0`, `inactive = 1`, `preActive = 0`); a
non-qualifying hop decays `preInactive` by one when positive.  The
Inactive branch is symmetric and its transition sets `active = 1`,
`inactive = 0`, `preInactive = 0`. -/
def VadGate.process (g : VadGate) (le : ℚ) : VadGate :=
  if g.active ≠ 0 then
    let g := { g with active := g.active + 1 }
    if le < g.inactiveLE then
      let g := { g with preInactive := g.preInactive + 1 }
      if (g.preInactive : ℚ) ≥ g.inactiveFrames then
        { g with active := 0, inactive := 1, preActive := 0 }
      else g
    else
      if g.preInactive > 0 then { g with preInactive := g.preInactive - 1 } else g
  else
    let g := { g with inactive := g.inactive + 1 }
    if le > g.activeLE then
      let g := { g with preActive := g.preActive + 1 }
      if (g.preActive : ℚ) ≥ g.activeFrames then
        { g with active := 1, inactive := 0, preInactive := 0 }
      else g
    else
      if g.preActive > 0 then { g with preActive := g.preActive - 1 } else g

/-- Iterated `process` over a stream of log-energies: `run g les k`
applies `process` to the first `k` hops `les 0, …, les (k-1)`. -/
def VadGate.run (g : VadGate) (les : ℕ → ℚ) : ℕ → VadGate
  | 0 => g
  | k + 1 => (g.run les k).process (les k)

/-- The well-formedness invariant of the gate: exactly one of the two
counters is positive. -/
def VadGate.WellFormed (g : VadGate) : Prop :=
  (0 < g.active ∧ g.inactive = 0) ∨ (g.active = 0 ∧ 0 < g.inactive)

/-! ## Worklet processor (`Processor`)

Only the state touched by the modelled control paths is embedded: the
audio ring buffers, MFCC scratch state and polyphase filter concern the
sample path, which none of the message/update handlers below read or
write (apart from clearing, tracked here by element counts).  `vadMode`,
`silMode` and the processor-level `silSensitivity` are kept as the raw
numbers the options carry. -/

structure OutEvent where
  tag : String
  t : ℚ
  deriving Repr, DecidableEq

structure Processor where
  isRunning : Bool
  isSpeaking : Bool
  isCalibrationRunning : Bool
  sampleCount : ℕ
  vadMode : ℚ
  silMode : ℚ
  silSensitivity : ℚ
  calibrationWindowN : ℕ
  ringVectorsCount : ℕ
  ringSamplesCount : ℕ
  ringCalibrationCount : ℕ
  vadGate : VadGate
  classifier : Classifier
  deriving Repr, DecidableEq

inductive ProcMsg where
  | stop
  | start
  | calibrate
  | reset
  | model (reset : Bool) (model : List Prototype)
  deriving Repr, DecidableEq

/-- `Processor._onmessage`.  `stop` halts processing and, when
mid-utterance, posts one `{ event: 'end', t }` message (tag exactly as in
the source) and clears the vector ring; `start` resumes; `calibrate`
clears the calibration ring and raises the flag; `model` imports into
the classifier; `reset` clears the sample/vector rings and the clock. -/
def Processor.onmessage (st : Processor) (m : ProcMsg) : Processor × List OutEvent :=
  match m with
  | .stop =>
      let st := { st with isRunning := false }
      if st.isSpeaking then
        ({ st with isSpeaking := false, ringVectorsCount := 0 },
         [{ tag := ("end"), t := (st.sampleCount : ℚ) / (AUDIO_SAMPLE_RATE : ℚ) }])
      else
        ({ st with ringVectorsCount := 0 }, [])
  | .start => ({ st with isRunning := true }, [])
  | .calibrate => ({ st with ringCalibrationCount := 0, isCalibrationRunning := true }, [])
  | .model reset model => ({ st with classifier := st.classifier.importModel reset model }, [])
  | .reset => ({ st with ringSamplesCount := 0, ringVectorsCount := 0, sampleCount := 0 }, [])

/-- `Processor.update`: live parameter updates.  Note that the
`"silSensitivity"` case writes the *processor's own* `silSensitivity`
field; it does not touch `this.classifier`.  Unmatched names beginning
with `"vadGate"` are forwarded to `VadGate.update`; `"speakerMeanHz"`
is forwarded to the MFCC stage (not modelled — it does not touch any
state embedded here). -/
def Processor.update (st : Processor) (options : List (String × ℚ)) : Processor :=
  options.foldl
    (fun st nv =>
      match nv.fst with
      | "vadMode" => { st with vadMode := nv.snd }
      | "silMode" => { st with silMode := nv.snd }
      | "silSensitivity" => { st with silSensitivity := nv.snd }
      | "silCalibrationWindowSec" =>
          let n := max 100 (Int.toNat ⌊nv.snd * (MFCC_SAMPLES_HOP : ℚ) / (AUDIO_SAMPLE_RATE : ℚ)⌋)
          { st with calibrationWindowN := n, ringCalibrationCount := 0 }
      | "speakerMeanHz" => st
      | "timerReset" => { st with sampleCount := 0 }
      | n => if n.startsWith ("vadGate") then { st with vadGate := st.vadGate.update [nv] } else st)
    st

/-- The event tags the `HeadAudio._onmessage` switch dispatches on; a
message whose tag is not among these falls through the switch and is
dropped. -/
def headAudioHandledTags : List String :=
  [("frame"), ("vad"), ("feature"), ("viseme"), ("started"), ("ended"), ("calibrated")]

/-! ## Trainer: binary record layout (`Training`)

The `record` buffer of `computePrototype` is a zero-initialised
`Float32Array(RECORD_LEN)`; a `DataView` writes the packed phoneme as a
big-endian `uint32` at byte 0 (DataView default endianness) and single
bytes at offsets 5 (group) and 7 (viseme); the `mu` and `sigmaInvLower`
`Float32Array` views store their float32 words little-endian at byte
offsets `RECORD_MU_OFFSET` and `RECORD_SIGMAINVLOWER_OFFSET`.  Float32
values are modelled by their 32-bit words, which is exact for
round-trip (bit-identity) statements. -/

def bytesOfUInt32BE (x : ℕ) : List ℕ :=
  [x / 2 ^ 24 % 256, x / 2 ^ 16 % 256, x / 2 ^ 8 % 256, x % 256]

def bytesOfWordLE (w : ℕ) : List ℕ :=
  [w % 256, w / 2 ^ 8 % 256, w / 2 ^ 16 % 256, w / 2 ^ 24 % 256]

/-- The bytes of the `bin` buffer produced by `computePrototype` for a
phoneme given as its list of code points (`ph1 = codePointAt(0) || 0`,
`ph2 = codePointAt(1) || 0`, missing positions read 0), a group and
viseme byte, and the float32 words of `mu` and `sigmaInvLower`.
`phPacked = (ph1 << 16) | ph2` is taken mod 2^32 as `setUint32` does. -/
def recordBin (phoneme : List ℕ) (group viseme : ℕ) (muWords sigWords : List ℕ) : List ℕ :=
  let ph1 := phoneme.getD 0 0
  let ph2 := phoneme.getD 1 0
  let phPacked := (ph1 * 2 ^ 16 + ph2) % 2 ^ 32
  bytesOfUInt32BE phPacked ++ [0, group % 256, 0, viseme % 256]
    ++ muWords.flatMap bytesOfWordLE ++ sigWords.flatMap bytesOfWordLE

def readWordLE (bytes : List ℕ) (off : ℕ) : ℕ :=
  bytes.getD off 0 + 2 ^ 8 * bytes.getD (off + 1) 0 + 2 ^ 16 * bytes.getD (off + 2) 0
    + 2 ^ 24 * bytes.getD (off + 3) 0

def readWordsLE (bytes : List ℕ) (off n : ℕ) : List ℕ :=
  (List.range n).map (fun k => readWordLE bytes (off + 4 * k))

structure DecodedRecord where
  phoneme : List ℕ
  group : ℕ
  viseme : ℕ
  muWords : List ℕ
  sigWords : List ℕ
  deriving Repr, DecidableEq

/-- `Training.decodeBinaryRecord`: big-endian `uint32` at byte 0 gives
the packed phoneme (`ph1 = packed >>> 16`, `ph2 = packed & 0xFFFF`; a
zero `ph2` yields a one-code-point phoneme), bytes 5 and 7 give group
and viseme, and the two `Float32Array` views give `mu` (`RECORD_MU_LEN`
words from `RECORD_MU_OFFSET`) and `sigmaInvLower`
(`RECORD_SIGMAINVLOWER_LEN` words from `RECORD_SIGMAINVLOWER_OFFSET`). -/
def decodeBinaryRecord (bytes : List ℕ) : DecodedRecord :=
  let phPacked := 2 ^ 24 * bytes.getD 0 0 + 2 ^ 16 * bytes.getD 1 0
    + 2 ^ 8 * bytes.getD 2 0 + bytes.getD 3 0
  let ph1 := phPacked / 2 ^ 16
  let ph2 := phPacked % 2 ^ 16
  { phoneme := if ph2 = 0 then [ph1] else [ph1, ph2]
    group := bytes.getD 5 0
    viseme := bytes.getD 7 0
    muWords := readWordsLE bytes RECORD_MU_OFFSET RECORD_MU_LEN
    sigWords := readWordsLE bytes RECORD_SIGMAINVLOWER_OFFSET RECORD_SIGMAINVLOWER_LEN }

/-- The record-slicing loop of `Training.loadModel`, applied to a fetched
blob: records of `RECORD_OFFSET` bytes are cut at `pos = 0, RECORD_OFFSET, …`
while `pos + RECORD_OFFSET <= byteLength` (hence `⌊byteLength / RECORD_OFFSET⌋`
records, trailing bytes ignored); an empty model is rejected with
`"Fetched model is empty"`.  The loop performs no dimensionality check. -/
def loadModelSlice (bytes : List ℕ) : Except String (List DecodedRecord) :=
  let n := bytes.length / RECORD_OFFSET
  let model := (List.range n).map (fun k => decodeBinaryRecord (bytes.drop (k * RECORD_OFFSET)))
  if model.length = 0 then Except.error ("Fetched model is empty")
  else Except.ok model

/-- Size in bytes of one binary record for feature dimension `D`: the
8-byte header, `D` float32s of `mu` and `D(D+1)/2` float32s of
`sigmaInvLower` (the `RECORD_OFFSET` formula of `parameters.mjs` with
`D` abstracted). -/
def recordSizeBytes (D : ℕ) : ℕ := 8 + 4 * D + 4 * (D * (D + 1) / 2)

/-! ## Trainer: `computePrototype` (statistics pipeline)

Float arithmetic is idealised over `ℚ`; `Math.sqrt` is an explicit
parameter `s : ℚ → ℚ` of the Cholesky routine (its value only matters
on positive pivots, which is all the code ever takes a square root of).
Matrices are lists of rows; row `i` of the lower-triangular factors has
`i + 1` entries. -/

/-- Sample mean: column sums divided by `M` (`mu[i] *= 1/M`). -/
def meanQ (vs : List (List ℚ)) (i : ℕ) : ℚ :=
  (vs.foldl (fun a row => a + row.getD i 0) 0) / (vs.length : ℚ)

/-- Unbiased sample covariance entry (`M − 1` denominator); the source
accumulates the upper triangle and mirrors it, which this symmetric
formula reproduces. -/
def covQ (vs : List (List ℚ)) (mu : ℕ → ℚ) (i j : ℕ) : ℚ :=
  (vs.foldl (fun a row => a + (row.getD i 0 - mu i) * (row.getD j 0 - mu j)) 0)
    / ((vs.length : ℚ) - 1)

/-- Diagonal jitter: `(trace/N)·1e-5` added to every diagonal entry. -/
def jitteredSigma (vs : List (List ℚ)) (mu : ℕ → ℚ) (i j : ℕ) : ℚ :=
  let N := MFCC_COEFF_N_WITH_DELTAS
  let baseJitter := (sumR N (fun t => covQ vs mu t t) / (N : ℚ)) * (1 / 100000)
  covQ vs mu i j + (if i = j then baseJitter else 0)

/-- The off-diagonal part of Cholesky row `i` (inner loop `j < i`):
`L[i][j] = (sigma[i][j] − Σ_{k<j} L[i][k]·L[j][k]) / L[j][j]`, using the
already-built entries `part` of row `i` and the previous `rows`. -/
def cholRowOff (sigma : ℕ → ℕ → ℚ) (rows : List (List ℚ)) (i : ℕ) : List ℚ :=
  (List.range i).foldl
    (fun part j =>
      part ++ [(sigma i j - sumR j (fun k => part.getD k 0 * (rows.getD j []).getD k 0))
                / (rows.getD j []).getD j 0])
    []

/-- Cholesky row `i` with the diagonal pivot check: the `j = i` iteration
computes `sum = sigma[i][i] − Σ_{k<i} L[i][k]²` and throws
`Matrix is not positive definite.` when `sum ≤ 0`, otherwise appends
`sqrt(sum)`. -/
def cholRow (s : ℚ → ℚ) (sigma : ℕ → ℕ → ℚ) (rows : List (List ℚ)) (i : ℕ) :
    Except String (List ℚ) :=
  if sigma i i - sumR i (fun k => (cholRowOff sigma rows i).getD k 0
      * (cholRowOff sigma rows i).getD k 0) ≤ 0
  then Except.error ("Matrix is not positive definite.")
  else Except.ok (cholRowOff sigma rows i
    ++ [s (sigma i i - sumR i (fun k => (cholRowOff sigma rows i).getD k 0
          * (cholRowOff sigma rows i).getD k 0))])

/-- The Cholesky outer loop, rows `0, …, n−1` accumulated in order. -/
def cholRows (s : ℚ → ℚ) (sigma : ℕ → ℕ → ℚ) : ℕ → Except String (List (List ℚ))
  | 0 => Except.ok []
  | n + 1 =>
      match cholRows s sigma n with
      | Except.error e => Except.error e
      | Except.ok rows =>
          match cholRow s sigma rows n with
          | Except.error e => Except.error e
          | Except.ok r => Except.ok (rows ++ [r])

/-- The diagonal pivot of Cholesky row `i`, recomputed from a factor `L`:
`sigma[i][i] − Σ_{k<i} L[i][k]²`. -/
def pivotAt (sigma : ℕ → ℕ → ℚ) (L : List (List ℚ)) (i : ℕ) : ℚ :=
  sigma i i - sumR i (fun k => (L.getD i []).getD k 0 * (L.getD i []).getD k 0)

/-- Row `i` of `L⁻¹` by forward substitution: diagonal `1/L[i][i]`,
and for `j < i` the entry `(Σ_{k=j}^{i−1} −L[i][k]·L⁻¹[k][j]) / L[i][i]`. -/
def linvRow (L : List (List ℚ)) (rowsInv : List (List ℚ)) (i : ℕ) : List ℚ :=
  let Lii := (L.getD i []).getD i 0
  ((List.range i).map (fun j =>
    (sumR (i - j) (fun t =>
      -((L.getD i []).getD (j + t) 0 * (rowsInv.getD (j + t) []).getD j 0))) / Lii))
    ++ [1 / Lii]

def linvRows (L : List (List ℚ)) : ℕ → List (List ℚ)
  | 0 => []
  | n + 1 => (linvRows L n) ++ [linvRow L (linvRows L n) n]

/-- `Σ⁻¹ = (L⁻¹)ᵀ·L⁻¹` packed straight into the lower-triangular layout:
for the pair `(i, j)` (`j ≤ i`, scanned in `lowerPairs` order, matching
the running `pos`) the entry `Σ_{k=max(i,j)}^{N−1} L⁻¹[k][i]·L⁻¹[k][j]`. -/
def sigmaInvLowerOf (LInv : List (List ℚ)) : List ℚ :=
  let N := MFCC_COEFF_N_WITH_DELTAS
  lowerPairs.map (fun p =>
    sumR (N - p.fst) (fun t =>
      (LInv.getD (p.fst + t) []).getD p.fst 0 * (LInv.getD (p.fst + t) []).getD p.snd 0))

structure PrototypeQ where
  phoneme : List ℕ
  group : ℕ
  viseme : ℕ
  mu : List ℚ
  sigmaInvLower : List ℚ
  deriving Repr, DecidableEq

/-- `Training.computePrototype` over `ℚ`: rejects fewer than
`MFCC_COEFF_N_WITH_DELTAS` vectors, then mean → covariance → jitter →
Cholesky (which rejects a non-positive pivot) → forward substitution →
packed inverse covariance.  (The `bin` serialisation of the result is
modelled separately, bit-exactly, by `recordBin`.) -/
def computePrototypeQ (s : ℚ → ℚ) (phoneme : List ℕ) (group viseme : ℕ)
    (vs : List (List ℚ)) : Except String PrototypeQ :=
  let N := MFCC_COEFF_N_WITH_DELTAS
  let M := vs.length
  if M < N then
    Except.error ("Not enough samples (" ++ toString M ++ ") to compute full covariance.")
  else
    let mu := meanQ vs
    let sigma := jitteredSigma vs mu
    match cholRows s sigma N with
    | Except.error e => Except.error e
    | Except.ok L =>
        let LInv := linvRows L N
        Except.ok
          { phoneme := phoneme
            group := group
            viseme := viseme
            mu := (List.range N).map mu
            sigmaInvLower := sigmaInvLowerOf LInv }

/-- The `'calibrated'` handler of `HeadAudio._onmessage`: it tries
`computePrototype("sc", 255, MODEL_VISEME_SIL, data.vs)` and posts a
one-prototype `model` message on success; on an exception it catches the
error and posts nothing (`none`) — the classifier in the worklet can
then only be reached by a `model` message, so its model is untouched. -/
def handleCalibrated (s : ℚ → ℚ) (vs : List (List ℚ)) : Option (List PrototypeQ) :=
  match computePrototypeQ s [115, 99] 255 MODEL_VISEME_SIL vs with
  | Except.ok p => some [p]
  | Except.error _ => none

/-! ## Claims about the VAD gate -/

/-- C10: after construction and after every `process` call, exactly one
of the counters `active`, `inactive` is positive, so the gate is always
in a single well-defined state and the downstream test `inactive > 0`
is equivalent to "not active". -/
theorem claim_C10_vadgate_invariant :
    (∀ a b c d : ℚ, (VadGate.init a b c d).WellFormed)
    ∧ (∀ (g : VadGate) (le : ℚ), g.WellFormed → (g.process le).WellFormed)
    ∧ (∀ g : VadGate, g.WellFormed → (0 < g.inactive ↔ ¬ 0 < g.active)) := by
  refine ⟨?_, ?_, ?_⟩
  · intro a b c d
    exact Or.inr ⟨rfl, Nat.one_pos⟩
  · intro g le h
    unfold VadGate.process
    rcases h with ⟨ha, hi⟩ | ⟨ha, hi⟩
    · simp only [VadGate.WellFormed]
      split_ifs <;> simp_all
    · simp only [VadGate.WellFormed]
      split_ifs <;> simp_all
  · intro g h
    rcases h with ⟨ha, hi⟩ | ⟨ha, hi⟩ <;> constructor <;> intro <;> omega

theorem claim_C10_witness :
    ((VadGate.init (-40) 10 (-50) 10).process 1).WellFormed
    ∧ (0 < (VadGate.init (-40) 10 (-50) 10).inactive
        ↔ ¬ 0 < (VadGate.init (-40) 10 (-50) 10).active) :=
  ⟨claim_C10_vadgate_invariant.2.1 _ 1 (claim_C10_vadgate_invariant.1 (-40) 10 (-50) 10),
   claim_C10_vadgate_invariant.2.2 _ (claim_C10_vadgate_invariant.1 (-40) 10 (-50) 10)⟩

/-- Inactive-state steps of the gate under loud input, before the
debounce threshold is reached: each hop increments `inactive` and
`preActive` and leaves the configuration fields untouched. -/
theorem vadgate_run_inactive (g : VadGate) (les : ℕ → ℚ) (n : ℕ)
    (ha : g.active = 0) (hp : g.preActive = 0) (hf : g.activeFrames = (n : ℚ))
    (hle : ∀ t, g.activeLE < les t) :
    ∀ k, k < n →
      (g.run les k).active = 0 ∧ (g.run les k).preActive = k
      ∧ (g.run les k).activeLE = g.activeLE ∧ (g.run les k).activeFrames = g.activeFrames
      ∧ (g.run les k).inactive = g.inactive + k ∧ (g.run les k).preInactive = g.preInactive := by
  intro k
  induction k with
  | zero => intro _; exact ⟨ha, hp, rfl, rfl, rfl, rfl⟩
  | succ k ih =>
      intro hk
      obtain ⟨h1, h2, h3, h4, h5, h6⟩ := ih (Nat.lt_of_succ_lt hk)
      have hstep : (g.run les (k + 1)) = ((g.run les k).process (les k)) := rfl
      rw [hstep]
      unfold VadGate.process
      rw [if_neg (by simp [h1])]
      have hgt : les k > (g.run les k).activeLE := h3 ▸ hle k
      rw [if_pos hgt]
      have hlt : ¬ (((g.run les k).preActive + 1 : ℕ) : ℚ) ≥ (g.run les k).activeFrames := by
        rw [h2, h4, hf]
        push_cast
        exact not_le.mpr (by exact_mod_cast hk)
      simp only [if_neg hlt]
      exact ⟨h1, by simp [h2], h3, h4, by simp [h5, Nat.add_assoc], h6⟩

/-- C6: from the Inactive state with `preActive = 0`, with log-energy
strictly above the active threshold on every call, the gate stays
Inactive through call `activeFrames − 1` and transitions exactly on the
`activeFrames`-th call, at which point `inactive = 0` and
`preInactive = 0`. -/
theorem claim_C6_vadgate_activation (g : VadGate) (les : ℕ → ℚ) (n : ℕ)
    (ha : g.active = 0) (hp : g.preActive = 0) (hf : g.activeFrames = (n : ℚ))
    (hn : 1 ≤ n) (hle : ∀ t, g.activeLE < les t) :
    (∀ k, k < n → (g.run les k).active = 0)
    ∧ (g.run les n).active = 1 ∧ (g.run les n).inactive = 0
    ∧ (g.run les n).preInactive = 0 := by
  constructor
  · intro k hk
    exact (vadgate_run_inactive g les n ha hp hf hle k hk).1
  · obtain ⟨m, rfl⟩ : ∃ m, n = m + 1 := ⟨n - 1, (Nat.succ_pred_eq_of_pos hn).symm⟩
    obtain ⟨h1, h2, h3, h4, h5, h6⟩ :=
      vadgate_run_inactive g les (m + 1) ha hp hf hle m (Nat.lt_succ_self m)
    have hstep : (g.run les (m + 1)) = ((g.run les m).process (les m)) := rfl
    rw [hstep]
    unfold VadGate.process
    rw [if_neg (by simp [h1])]
    have hgt : les m > (g.run les m).activeLE := h3 ▸ hle m
    rw [if_pos hgt]
    have hge : (g.run les m).activeFrames ≤ ((g.run les m).preActive : ℚ) + 1 := by
      rw [h4, hf, h2]
      push_cast
      exact le_refl _
    simp [hge]

/-- Witness for C6: `activeFrames = 2` (constructor with 32 ms at the
62.5 Hz hop rate); the gate is still inactive after hop 1 and becomes
active exactly on hop 2. -/
theorem claim_C6_witness :
    ((VadGate.init (-40) 32 (-50) 10).run (fun _ => 1) 1).active = 0
    ∧ ((VadGate.init (-40) 32 (-50) 10).run (fun _ => 1) 2).active = 1
    ∧ ((VadGate.init (-40) 32 (-50) 10).run (fun _ => 1) 2).inactive = 0
    ∧ ((VadGate.init (-40) 32 (-50) 10).run (fun _ => 1) 2).preInactive = 0 := by
  have h := claim_C6_vadgate_activation (VadGate.init (-40) 32 (-50) 10) (fun _ => 1) 2
    (by decide) (by decide)
    (by norm_num [VadGate.init, AUDIO_SAMPLE_RATE, MFCC_SAMPLES_HOP, round_eq])
    (by decide) (fun t => by norm_num [VadGate.init])
  exact ⟨h.1 1 (by decide), h.2.1, h.2.2.1, h.2.2.2⟩

/-! ## Claims about the processor's control paths -/

/-- C7 names behaviour the code does not have: `Processor.update` with
key `"silSensitivity"` writes only the processor's own (otherwise
unread) `silSensitivity` field and leaves the classifier — including
the `silSensitivity` that `predict` divides by — untouched; and even a
direct `Classifier.update` with the correctly-spelled key is a no-op,
because the classifier matches only the misspelled `"silSentivity"`.
Consequently `predict` keeps dividing silence distances by the
construction-time sensitivity. -/
theorem claim_C7_silsensitivity_update_lost :
    ∀ (st : Processor) (s : ℚ),
      (st.update [(("silSensitivity"), s)]).classifier = st.classifier
      ∧ (st.update [(("silSensitivity"), s)]).silSensitivity = s
      ∧ st.classifier.update [(("silSensitivity"), s)] = st.classifier
      ∧ ∀ v : List ℚ,
          ((st.update [(("silSensitivity"), s)]).classifier.distancesOf v)
            = st.classifier.distancesOf v := by
  intro st s
  refine ⟨rfl, rfl, ?_, fun v => rfl⟩
  simp [Classifier.update]

/-- Witness evaluating the C7 theorem at a concrete state: the
classifier keeps sensitivity 6/5 after an update to 5. -/
theorem claim_C7_witness :
    ((Processor.update
        { isRunning := true, isSpeaking := false, isCalibrationRunning := false,
          sampleCount := 0, vadMode := 1, silMode := 1, silSensitivity := 6 / 5,
          calibrationWindowN := 187, ringVectorsCount := 0, ringSamplesCount := 0,
          ringCalibrationCount := 0, vadGate := VadGate.init (-40) 10 (-50) 10,
          classifier := Classifier.init (6 / 5) }
        [(("silSensitivity"), 5)]).classifier).silSensitivity = 6 / 5 := by
  rw [(claim_C7_silsensitivity_update_lost _ 5).1]
  rfl

/-- C9: `stop` while speaking posts exactly one speech-boundary message,
but its tag is the literal `'end'` (line `postMessage({ event: 'end', t })`),
not `'ended'`; the `HeadAudio._onmessage` switch has no `'end'` case, so
the consumer drops it.  When not speaking, `stop` posts nothing. -/
theorem claim_C9_stop_event :
    ∀ st : Processor,
      (st.isSpeaking = true →
        st.onmessage ProcMsg.stop
          = ({ st with isRunning := false, isSpeaking := false, ringVectorsCount := 0 },
             [{ tag := ("end"), t := (st.sampleCount : ℚ) / (AUDIO_SAMPLE_RATE : ℚ) }]))
      ∧ (st.isSpeaking = false → st.onmessage ProcMsg.stop
          = ({ st with isRunning := false, ringVectorsCount := 0 }, []))
      ∧ ("end") ∉ headAudioHandledTags ∧ ("ended") ∈ headAudioHandledTags := by
  intro st
  refine ⟨fun h => ?_, fun h => ?_, by decide, by decide⟩
  · simp [Processor.onmessage, h]
  · simp [Processor.onmessage, h]

theorem claim_C9_witness :
    (Processor.onmessage
        { isRunning := true, isSpeaking := true, isCalibrationRunning := false,
          sampleCount := 32000, vadMode := 1, silMode := 1, silSensitivity := 6 / 5,
          calibrationWindowN := 187, ringVectorsCount := 3, ringSamplesCount := 0,
          ringCalibrationCount := 0, vadGate := VadGate.init (-40) 10 (-50) 10,
          classifier := Classifier.init (6 / 5) }
        ProcMsg.stop).snd
      = [{ tag := ("end"), t := 2 }] := by
  rw [((claim_C9_stop_event _).1 rfl)]
  norm_num [AUDIO_SAMPLE_RATE]

/-! ## Claims about the classifier's majority vote and suppression rule -/

/-- Prefix of the majority-vote scan loop after `n` iterations (the loop
body of `predict`'s vote, folded over `0, …, n−1`).  `voteScan` is this
scan at `n = MODEL_VISEMES_N`. -/
def voteScanN (counts : ℕ → ℕ) (n : ℕ) : ℕ × ℕ :=
  (List.range n).foldl
    (fun acc i => if counts i ≥ acc.snd then (i, counts i) else acc)
    (0, 0)

theorem voteScan_eq_voteScanN (counts : ℕ → ℕ) :
    voteScan counts = voteScanN counts MODEL_VISEMES_N := rfl

theorem voteScanN_succ (counts : ℕ → ℕ) (n : ℕ) :
    voteScanN counts (n + 1)
      = if counts n ≥ (voteScanN counts n).snd then (n, counts n)
        else voteScanN counts n := by
  simp [voteScanN, List.range_succ]

/-- Invariant of the vote scan: after scanning `0, …, n−1` the leader is
a maximiser of `counts` on that range, its count is recorded, and every
tied index is ≤ the leader — i.e. ties go to the **largest** index,
because `>=` lets a later index displace the leader at equal count. -/
theorem voteScanN_spec (counts : ℕ → ℕ) :
    ∀ n, 1 ≤ n →
      (voteScanN counts n).fst < n
      ∧ (voteScanN counts n).snd = counts (voteScanN counts n).fst
      ∧ (∀ i, i < n → counts i ≤ (voteScanN counts n).snd)
      ∧ (∀ i, i < n → counts i = (voteScanN counts n).snd → i ≤ (voteScanN counts n).fst) := by
  intro n
  induction n with
  | zero => intro h; exact absurd h (by decide)
  | succ n ih =>
      intro _
      by_cases hn : 1 ≤ n
      · obtain ⟨h1, h2, h3, h4⟩ := ih hn
        rw [voteScanN_succ]
        by_cases hc : counts n ≥ (voteScanN counts n).snd
        · rw [if_pos hc]
          refine ⟨Nat.lt_succ_self n, rfl, fun i hi => ?_, fun i hi _ => Nat.lt_succ_iff.mp hi⟩
          rcases Nat.lt_succ_iff_lt_or_eq.mp hi with hi' | rfl
          · exact le_trans (h3 i hi') hc
          · exact le_refl _
        · rw [if_neg hc]
          refine ⟨Nat.lt_succ_of_lt h1, h2, fun i hi => ?_, fun i hi he => ?_⟩
          · rcases Nat.lt_succ_iff_lt_or_eq.mp hi with hi' | rfl
            · exact h3 i hi'
            · exact le_of_not_le hc
          · rcases Nat.lt_succ_iff_lt_or_eq.mp hi with hi' | rfl
            · exact h4 i hi' he
            · exact absurd (he ▸ le_refl _) hc
      · have hn0 : n = 0 := by omega
        subst hn0
        have h1 : voteScanN counts 1 = (0, counts 0) := by
          simp [voteScanN, List.range_succ]
        rw [h1]
        refine ⟨Nat.lt_succ_self 0, rfl, fun i hi => ?_, fun i hi _ => ?_⟩
        · have : i = 0 := by omega
          subst this
          exact le_refl _
        · omega

/-- `predict` in the suppression branch (majority equals the previous
prediction and both are silence): emits `none`, keeps
`predictionLast`, and still pushes the raw viseme into the ring. -/
theorem predict_eq_none (cs : Classifier) (v : List ℚ) (h : cs.prototypes ≠ [])
    (hc : cs.majorityOf v = cs.predictionLast ∧ cs.majorityOf v = MODEL_VISEME_SIL) :
    cs.predict v
      = ((none, cs.distancesOf v),
         { cs with ringBuf := (ringAdd cs.ringBuf cs.ringTail (cs.rawViseme v)).fst,
                   ringTail := (ringAdd cs.ringBuf cs.ringTail (cs.rawViseme v)).snd }) := by
  have hlen : ¬ cs.prototypes.length = 0 := by
    simpa [List.length_eq_zero] using h
  unfold Classifier.predict
  rw [if_neg hlen, if_pos hc]

/-- `predict` in the emitting branch: returns the majority viseme and
stores it as `predictionLast`. -/
theorem predict_eq_some (cs : Classifier) (v : List ℚ) (h : cs.prototypes ≠ [])
    (hc : ¬ (cs.majorityOf v = cs.predictionLast ∧ cs.majorityOf v = MODEL_VISEME_SIL)) :
    cs.predict v
      = ((some (cs.majorityOf v), cs.distancesOf v),
         { cs with ringBuf := (ringAdd cs.ringBuf cs.ringTail (cs.rawViseme v)).fst,
                   ringTail := (ringAdd cs.ringBuf cs.ringTail (cs.rawViseme v)).snd,
                   predictionLast := cs.majorityOf v }) := by
  have hlen : ¬ cs.prototypes.length = 0 := by
    simpa [List.length_eq_zero] using h
  unfold Classifier.predict
  rw [if_neg hlen, if_neg hc]

/-- C3: with a loaded model, `predict` returns `null` exactly when the
majority result equals the previous emitted prediction and both equal
the silence viseme (14); in that case the stored last prediction is
kept, and in every other case the majority viseme is returned (even if
it repeats a non-silence viseme) and stored as the last prediction. -/
theorem claim_C3_silence_suppression (cs : Classifier) (v : List ℚ)
    (h : cs.prototypes ≠ []) :
    ((cs.predict v).fst.fst = none
      ↔ (cs.majorityOf v = cs.predictionLast ∧ cs.majorityOf v = MODEL_VISEME_SIL))
    ∧ ((cs.majorityOf v = cs.predictionLast ∧ cs.majorityOf v = MODEL_VISEME_SIL)
        → (cs.predict v).snd.predictionLast = cs.predictionLast)
    ∧ (¬ (cs.majorityOf v = cs.predictionLast ∧ cs.majorityOf v = MODEL_VISEME_SIL)
        → (cs.predict v).fst.fst = some (cs.majorityOf v)
          ∧ (cs.predict v).snd.predictionLast = cs.majorityOf v) := by
  by_cases hc : cs.majorityOf v = cs.predictionLast ∧ cs.majorityOf v = MODEL_VISEME_SIL
  · refine ⟨⟨fun _ => hc, fun _ => ?_⟩, fun _ => ?_, fun hn => absurd hc hn⟩
    · rw [predict_eq_none cs v h hc]
    · rw [predict_eq_none cs v h hc]
  · refine ⟨⟨fun he => ?_, fun hcc => absurd hcc hc⟩,
      fun hcc => absurd hcc hc, fun _ => ⟨?_, ?_⟩⟩
    · rw [predict_eq_some cs v h hc] at he
      exact Option.noConfusion he
    · rw [predict_eq_some cs v h hc]
    · rw [predict_eq_some cs v h hc]

/-- Sum of zeros. -/
theorem sumR_zeros (n : ℕ) : sumR n (fun _ => 0) = 0 := by
  induction n with
  | zero => rfl
  | succ n ih => rw [sumR_succ, ih, add_zero]

/-- With an empty packed matrix every `getD` access reads the default 0,
so the Mahalanobis accumulation collapses to 0 (used to build concrete
evaluation states whose arithmetic is trivial). -/
theorem distanceMahalanobis_nil (v mu : List ℚ) :
    distanceMahalanobis v mu [] = 0 := by
  unfold distanceMahalanobis
  have hz : ∀ i : ℕ,
      (List.range i).foldl
        (fun s j => s + 2 * ([] : List ℚ).getD (sigmaLowerIndex i j) 0
          * (v.getD i 0 - mu.getD i 0) * (v.getD j 0 - mu.getD j 0))
        (([] : List ℚ).getD (sigmaLowerIndex i i) 0
          * (v.getD i 0 - mu.getD i 0) * (v.getD i 0 - mu.getD i 0)) = 0 := by
    intro i
    rw [foldl_add_shift]
    have h1 : (([] : List ℚ).getD (sigmaLowerIndex i i) 0
        * (v.getD i 0 - mu.getD i 0) * (v.getD i 0 - mu.getD i 0)) = 0 := by
      simp [List.getD_nil]
    have h2 : sumR i (fun j => 2 * ([] : List ℚ).getD (sigmaLowerIndex i j) 0
        * (v.getD i 0 - mu.getD i 0) * (v.getD j 0 - mu.getD j 0)) = 0 := by
      rw [sumR_congr _ _ (fun _ => 0) (fun j => by simp [List.getD_nil]), sumR_zeros]
    rw [h1, zero_add]
    exact h2
  rw [sumR_congr _ _ (fun _ => 0) hz, sumR_zeros]

/-- A silence-only classifier used for concrete evaluations of `predict`
(prototype matrices empty so that every distance is literally 0). -/
def csSil : Classifier :=
  { prototypes := [{ phoneme := [45], group := 255, viseme := MODEL_VISEME_SIL,
                     mu := [], sigmaInvLower := [] }]
    ringBuf := List.replicate 6 MODEL_VISEME_SIL
    ringTail := 0
    predictionLast := MODEL_VISEME_SIL
    silSensitivity := 6 / 5 }

theorem csSil_distances : csSil.distancesOf [] = [0] := by
  simp [Classifier.distancesOf, csSil, adjustedDistance, distanceMahalanobis_nil,
    MODEL_VISEME_SIL]

theorem csSil_rawViseme : csSil.rawViseme [] = MODEL_VISEME_SIL := by
  unfold Classifier.rawViseme
  rw [csSil_distances]
  rfl

theorem csSil_majority : csSil.majorityOf [] = MODEL_VISEME_SIL := by
  unfold Classifier.majorityOf
  rw [csSil_rawViseme]
  decide

theorem claim_C3_witness : (csSil.predict []).fst.fst = none :=
  (claim_C3_silence_suppression csSil [] (by decide)).1.mpr
    (by rw [csSil_majority]; exact ⟨rfl, rfl⟩)

/-- C2, amended: in the majority vote, the chosen viseme always attains
the maximal count, and whenever several viseme IDs tie for the highest
count the chosen one is the **highest** of the tied IDs (the `>=`
comparison lets each later, larger ID displace the leader at equal
count); `predict` then emits that majority viseme or `null`. -/
theorem claim_C2_amended_majority_tiebreak (cs : Classifier) (v : List ℚ)
    (h : cs.prototypes ≠ []) :
    (∀ i, i < MODEL_VISEMES_N →
        countsOf ((ringAdd cs.ringBuf cs.ringTail (cs.rawViseme v)).fst) i
          ≤ countsOf ((ringAdd cs.ringBuf cs.ringTail (cs.rawViseme v)).fst) (cs.majorityOf v))
    ∧ (∀ i, i < MODEL_VISEMES_N →
        countsOf ((ringAdd cs.ringBuf cs.ringTail (cs.rawViseme v)).fst) i
          = countsOf ((ringAdd cs.ringBuf cs.ringTail (cs.rawViseme v)).fst) (cs.majorityOf v)
          → i ≤ cs.majorityOf v)
    ∧ cs.majorityOf v < MODEL_VISEMES_N
    ∧ ((cs.predict v).fst.fst = none ∨ (cs.predict v).fst.fst = some (cs.majorityOf v)) := by
  obtain ⟨h1, h2, h3, h4⟩ :=
    voteScanN_spec (countsOf ((ringAdd cs.ringBuf cs.ringTail (cs.rawViseme v)).fst))
      MODEL_VISEMES_N (by decide)
  have hmaj : cs.majorityOf v
      = (voteScanN (countsOf ((ringAdd cs.ringBuf cs.ringTail (cs.rawViseme v)).fst))
          MODEL_VISEMES_N).fst := rfl
  refine ⟨fun i hi => ?_, fun i hi he => ?_, ?_, ?_⟩
  · rw [hmaj, ← h2]
    exact h3 i hi
  · exact h4 i hi (by rw [he, hmaj, ← h2])
  · rw [hmaj]
    exact h1
  · by_cases hc : cs.majorityOf v = cs.predictionLast ∧ cs.majorityOf v = MODEL_VISEME_SIL
    · left
      rw [predict_eq_none cs v h hc]
    · right
      rw [predict_eq_some cs v h hc]

/-- A 2-prototype classifier (visemes 0 and 1, empty matrices so both
distances evaluate to 0 and the `<=` min-scan selects the last
prototype) whose prediction ring is about to contain three 0s and three
1s. -/
def csTie : Classifier :=
  { prototypes :=
      [{ phoneme := [97], group := 0, viseme := 0, mu := [], sigmaInvLower := [] },
       { phoneme := [98], group := 0, viseme := 1, mu := [], sigmaInvLower := [] }]
    ringBuf := [14, 0, 0, 0, 1, 1]
    ringTail := 0
    predictionLast := 14
    silSensitivity := 6 / 5 }

theorem csTie_distances : csTie.distancesOf [] = [0, 0] := by
  simp [Classifier.distancesOf, csTie, adjustedDistance, distanceMahalanobis_nil,
    MODEL_VISEME_SIL]

theorem csTie_rawViseme : csTie.rawViseme [] = 1 := by
  unfold Classifier.rawViseme
  rw [csTie_distances]
  rfl

theorem csTie_majority : csTie.majorityOf [] = 1 := by
  unfold Classifier.majorityOf
  rw [csTie_rawViseme]
  decide

/-- Counterexample to C2 as stated: after the raw viseme 1 is pushed,
the ring holds three 0s and three 1s — a tie at the highest count 3 —
and the majority result emitted by `predict` is viseme 1, the *highest*
tied ID, not the lowest (0). -/
theorem claim_C2_cex :
    countsOf ((ringAdd csTie.ringBuf csTie.ringTail (csTie.rawViseme [])).fst) 0 = 3
    ∧ countsOf ((ringAdd csTie.ringBuf csTie.ringTail (csTie.rawViseme [])).fst) 1 = 3
    ∧ (∀ i, i < MODEL_VISEMES_N →
        countsOf ((ringAdd csTie.ringBuf csTie.ringTail (csTie.rawViseme [])).fst) i ≤ 3)
    ∧ (csTie.predict []).fst.fst = some 1 := by
  have hc : ¬ (csTie.majorityOf [] = csTie.predictionLast
      ∧ csTie.majorityOf [] = MODEL_VISEME_SIL) := by
    rw [csTie_majority]
    decide
  refine ⟨?_, ?_, ?_, ?_⟩
  · rw [csTie_rawViseme]
    decide
  · rw [csTie_rawViseme]
    decide
  · rw [csTie_rawViseme]
    decide
  · rw [predict_eq_some csTie [] (by decide) hc, csTie_majority]

theorem claim_C2_witness :
    csTie.majorityOf [] < MODEL_VISEMES_N :=
  (claim_C2_amended_majority_tiebreak csTie [] (by decide)).2.2.1

/-! ## C1: recorded distances and minimum-distance selection -/

/-- Prefix of `predict`'s min-scan loop after `n` iterations. -/
def minScanN (ds : List ℚ) (n : ℕ) : Option ℚ × ℕ :=
  (List.range n).foldl
    (fun acc i =>
      let d := ds.getD i 0
      match acc.fst with
      | none => (some d, i)
      | some m => if d ≤ m then (some d, i) else acc)
    (none, 0)

theorem minScan_eq_minScanN (ds : List ℚ) : minScan ds = minScanN ds ds.length := rfl

theorem minScanN_succ (ds : List ℚ) (n : ℕ) :
    minScanN ds (n + 1)
      = match (minScanN ds n).fst with
        | none => (some (ds.getD n 0), n)
        | some m =>
            if ds.getD n 0 ≤ m then (some (ds.getD n 0), n) else minScanN ds n := by
  simp [minScanN, List.range_succ]

/-- Invariant of the min-scan: after scanning indices `0, …, n−1` the
accumulator holds an index whose distance is minimal on that range. -/
theorem minScanN_spec (ds : List ℚ) :
    ∀ n, 1 ≤ n →
      (minScanN ds n).snd < n
      ∧ (minScanN ds n).fst = some (ds.getD (minScanN ds n).snd 0)
      ∧ ∀ i, i < n → ds.getD (minScanN ds n).snd 0 ≤ ds.getD i 0 := by
  intro n
  induction n with
  | zero => intro h; exact absurd h (by decide)
  | succ n ih =>
      intro _
      by_cases hn : 1 ≤ n
      · obtain ⟨h1, h2, h3⟩ := ih hn
        rw [minScanN_succ, h2]
        by_cases hd : ds.getD n 0 ≤ ds.getD (minScanN ds n).snd 0
        · simp only [if_pos hd]
          refine ⟨Nat.lt_succ_self n, by simp, fun i hi => ?_⟩
          rcases Nat.lt_succ_iff_lt_or_eq.mp hi with hi' | rfl
          · exact le_trans hd (h3 i hi')
          · exact le_refl _
        · simp only [if_neg hd]
          refine ⟨Nat.lt_succ_of_lt h1, h2, fun i hi => ?_⟩
          rcases Nat.lt_succ_iff_lt_or_eq.mp hi with hi' | rfl
          · exact h3 i hi'
          · exact le_of_lt (lt_of_not_le hd)
      · have hn0 : n = 0 := by omega
        subst hn0
        have h0 : minScanN ds 1 = (some (ds.getD 0 0), 0) := by
          simp [minScanN, List.range_succ]
        rw [h0]
        refine ⟨Nat.lt_succ_self 0, rfl, fun i hi => ?_⟩
        have : i = 0 := by omega
        subst this
        exact le_refl _

/-- C1: on a non-empty model, the distances recorded by `predict` are
exactly the claim's Mahalanobis sums, divided by `silSensitivity` for
silence-viseme prototypes; the raw viseme pushed into the prediction
ring is that of a prototype whose recorded distance is minimal. -/
theorem claim_C1_mahalanobis_and_selection (cs : Classifier) (v : List ℚ)
    (h : cs.prototypes ≠ []) :
    ((cs.predict v).fst.snd
        = cs.prototypes.map (fun p =>
            if p.viseme = MODEL_VISEME_SIL
            then specMahalanobis v p.mu p.sigmaInvLower / cs.silSensitivity
            else specMahalanobis v p.mu p.sigmaInvLower))
    ∧ (∃ k, k < cs.prototypes.length
        ∧ cs.rawViseme v = (cs.prototypes.getD k default).viseme
        ∧ ∀ i, i < cs.prototypes.length →
            (cs.distancesOf v).getD k 0 ≤ (cs.distancesOf v).getD i 0)
    ∧ (cs.predict v).snd.ringBuf = cs.ringBuf.set cs.ringTail (cs.rawViseme v) := by
  have hds : (cs.predict v).fst.snd = cs.distancesOf v := by
    by_cases hc : cs.majorityOf v = cs.predictionLast ∧ cs.majorityOf v = MODEL_VISEME_SIL
    · rw [predict_eq_none cs v h hc]
    · rw [predict_eq_some cs v h hc]
  have hlen : (cs.distancesOf v).length = cs.prototypes.length := by
    simp [Classifier.distancesOf]
  have hlen1 : 1 ≤ (cs.distancesOf v).length := by
    rw [hlen]
    exact Nat.pos_of_ne_zero (fun h0 => h (List.length_eq_zero.mp h0))
  obtain ⟨m1, m2, m3⟩ := minScanN_spec (cs.distancesOf v) (cs.distancesOf v).length hlen1
  refine ⟨?_, ⟨(minScan (cs.distancesOf v)).snd, ?_, rfl, ?_⟩, ?_⟩
  · rw [hds]
    unfold Classifier.distancesOf
    refine congrArg (fun f => List.map f cs.prototypes) (funext fun p => ?_)
    simp only [adjustedDistance, distanceMahalanobis_eq_spec]
  · rw [minScan_eq_minScanN, ← hlen]
    exact m1
  · intro i hi
    rw [minScan_eq_minScanN]
    exact m3 i (hlen ▸ hi)
  · by_cases hc : cs.majorityOf v = cs.predictionLast ∧ cs.majorityOf v = MODEL_VISEME_SIL
    · rw [predict_eq_none cs v h hc]
      rfl
    · rw [predict_eq_some cs v h hc]
      rfl

theorem claim_C1_witness :
    (csSil.predict []).fst.snd
      = csSil.prototypes.map (fun p =>
          if p.viseme = MODEL_VISEME_SIL
          then specMahalanobis [] p.mu p.sigmaInvLower / csSil.silSensitivity
          else specMahalanobis [] p.mu p.sigmaInvLower) :=
  (claim_C1_mahalanobis_and_selection csSil [] (by decide)).1

/-! ## C5: trainer failure modes -/

theorem sumR_congr_lt (n : ℕ) (f g : ℕ → ℚ) (h : ∀ k, k < n → f k = g k) :
    sumR n f = sumR n g := by
  induction n with
  | zero => rfl
  | succ n ih =>
      rw [sumR_succ, sumR_succ, ih (fun k hk => h k (Nat.lt_succ_of_lt hk)),
        h n (Nat.lt_succ_self n)]

/-- Folding a one-element append over a list grows the accumulator by
one element per step. -/
theorem foldl_append_one_length (g : List ℚ → ℕ → ℚ) :
    ∀ (l : List ℕ) (p : List ℚ),
      (l.foldl (fun part j => part ++ [g part j]) p).length = p.length + l.length := by
  intro l
  induction l with
  | nil => intro p; simp
  | cons x xs ih =>
      intro p
      simp only [List.foldl_cons, ih, List.length_append, List.length_cons]
      simp
      omega

theorem cholRowOff_length (sigma : ℕ → ℕ → ℚ) (rows : List (List ℚ)) (i : ℕ) :
    (cholRowOff sigma rows i).length = i := by
  unfold cholRowOff
  rw [foldl_append_one_length
    (fun part j => (sigma i j - sumR j (fun k => part.getD k 0 * (rows.getD j []).getD k 0))
      / (rows.getD j []).getD j 0)]
  simp

theorem cholRows_length (s : ℚ → ℚ) (sigma : ℕ → ℕ → ℚ) :
    ∀ n L, cholRows s sigma n = Except.ok L → L.length = n := by
  intro n
  induction n with
  | zero =>
      intro L hL
      cases hL
      rfl
  | succ n ih =>
      intro L hL
      unfold cholRows at hL
      cases h1 : cholRows s sigma n with
      | error e =>
          rw [h1] at hL
          exact Except.noConfusion hL
      | ok rows =>
          rw [h1] at hL
          simp only [] at hL
          cases h2 : cholRow s sigma rows n with
          | error e =>
              rw [h2] at hL
              exact Except.noConfusion hL
          | ok r =>
              rw [h2] at hL
              simp only [] at hL
              cases hL
              simp [ih rows h1]

/-- A successful Cholesky row has a strictly positive pivot, and the row
is the off-diagonal part extended by the square root of that pivot. -/
theorem cholRow_ok (s : ℚ → ℚ) (sigma : ℕ → ℕ → ℚ) (rows : List (List ℚ)) (i : ℕ)
    (r : List ℚ) (h : cholRow s sigma rows i = Except.ok r) :
    0 < sigma i i - sumR i (fun k => (cholRowOff sigma rows i).getD k 0
        * (cholRowOff sigma rows i).getD k 0)
    ∧ r = cholRowOff sigma rows i
        ++ [s (sigma i i - sumR i (fun k => (cholRowOff sigma rows i).getD k 0
            * (cholRowOff sigma rows i).getD k 0))] := by
  by_cases hs : sigma i i - sumR i (fun k => (cholRowOff sigma rows i).getD k 0
      * (cholRowOff sigma rows i).getD k 0) ≤ 0
  · rw [cholRow, if_pos hs] at h
    cases h
  · rw [cholRow, if_neg hs] at h
    cases h
    exact ⟨lt_of_not_le hs, rfl⟩

/-- Each pivot of a successfully computed Cholesky factor, recomputed
from the produced rows, is strictly positive. -/
theorem cholRows_pivots (s : ℚ → ℚ) (sigma : ℕ → ℕ → ℚ) :
    ∀ n L, cholRows s sigma n = Except.ok L → ∀ i, i < n → 0 < pivotAt sigma L i := by
  intro n
  induction n with
  | zero => intro L _ i hi; exact absurd hi (Nat.not_lt_zero i)
  | succ n ih =>
      intro L hL i hi
      unfold cholRows at hL
      cases h1 : cholRows s sigma n with
      | error e =>
          rw [h1] at hL
          exact Except.noConfusion hL
      | ok rows =>
          rw [h1] at hL
          simp only [] at hL
          cases h2 : cholRow s sigma rows n with
          | error e =>
              rw [h2] at hL
              exact Except.noConfusion hL
          | ok r =>
              rw [h2] at hL
              simp only [] at hL
              cases hL
              have hrl : rows.length = n := cholRows_length s sigma n rows h1
              rcases Nat.lt_succ_iff_lt_or_eq.mp hi with hi' | rfl
              · have hget : (rows ++ [r]).getD i [] = rows.getD i [] :=
                  List.getD_append rows [r] [] i (by omega)
                unfold pivotAt
                rw [hget]
                exact ih rows h1 i hi'
              · obtain ⟨hpos, hr⟩ := cholRow_ok s sigma rows i r h2
                have hget : (rows ++ [r]).getD i [] = r := by
                  rw [List.getD_append_right rows [r] [] i (by omega), hrl]
                  simp
                have hpartlen : (cholRowOff sigma rows i).length = i :=
                  cholRowOff_length sigma rows i
                unfold pivotAt
                rw [hget, hr]
                have hsum : sumR i (fun k =>
                    ((cholRowOff sigma rows i
                        ++ [s (sigma i i - sumR i (fun k => (cholRowOff sigma rows i).getD k 0
                            * (cholRowOff sigma rows i).getD k 0))]).getD k 0)
                      * ((cholRowOff sigma rows i
                        ++ [s (sigma i i - sumR i (fun k => (cholRowOff sigma rows i).getD k 0
                            * (cholRowOff sigma rows i).getD k 0))]).getD k 0))
                    = sumR i (fun k => (cholRowOff sigma rows i).getD k 0
                        * (cholRowOff sigma rows i).getD k 0) := by
                  refine sumR_congr_lt i _ _ (fun k hk => ?_)
                  rw [List.getD_append _ _ _ _ (by omega)]
                rw [hsum]
                exact hpos

theorem cholRows_succ (s : ℚ → ℚ) (sigma : ℕ → ℕ → ℚ) (n : ℕ) :
    cholRows s sigma (n + 1)
      = match cholRows s sigma n with
        | Except.error e => Except.error e
        | Except.ok rows =>
            match cholRow s sigma rows n with
            | Except.error e => Except.error e
            | Except.ok r => Except.ok (rows ++ [r]) := rfl

/-- C5: `computePrototype` (a) rejects fewer than
`MFCC_COEFF_N_WITH_DELTAS` = 12 feature vectors with the
"Not enough samples" error; (b) a Cholesky run that succeeds has every
diagonal pivot strictly positive — equivalently, a non-positive pivot
encountered during the decomposition makes it throw; and (c) whenever
the online-calibration computation errors, the `'calibrated'` handler
posts no model message, leaving the classifier's model untouched. -/
theorem claim_C5_trainer_failures :
    (∀ (s : ℚ → ℚ) (phoneme : List ℕ) (group viseme : ℕ) (vs : List (List ℚ)),
        vs.length < MFCC_COEFF_N_WITH_DELTAS →
        computePrototypeQ s phoneme group viseme vs
          = Except.error ("Not enough samples (" ++ toString vs.length
              ++ ") to compute full covariance."))
    ∧ (∀ (s : ℚ → ℚ) (sigma : ℕ → ℕ → ℚ) (n : ℕ) (L : List (List ℚ)),
        cholRows s sigma n = Except.ok L →
        ∀ i, i < n → 0 < pivotAt sigma L i)
    ∧ (∀ (s : ℚ → ℚ) (vs : List (List ℚ)) (e : String),
        computePrototypeQ s [115, 99] 255 MODEL_VISEME_SIL vs = Except.error e →
        handleCalibrated s vs = none) := by
  refine ⟨?_, ?_, ?_⟩
  · intro s phoneme group viseme vs h
    simp only [computePrototypeQ]
    rw [if_pos h]
  · intro s sigma n L hL i hi
    exact cholRows_pivots s sigma n L hL i hi
  · intro s vs e h
    unfold handleCalibrated
    rw [h]

theorem claim_C5_witness :
    computePrototypeQ (fun x => x) [97] 0 0 []
      = Except.error ("Not enough samples ("
          ++ toString (List.length ([] : List (List ℚ))) ++ ") to compute full covariance.")
    ∧ 0 < pivotAt (fun _ _ => 1) [[1]] 0
    ∧ handleCalibrated (fun x => x) [] = none := by
  have hoff : cholRowOff (fun _ _ => (1 : ℚ)) [] 0 = [] := rfl
  have hcond : ¬ ((fun _ _ => (1 : ℚ)) 0 0
      - sumR 0 (fun k => (cholRowOff (fun _ _ => (1 : ℚ)) [] 0).getD k 0
          * (cholRowOff (fun _ _ => (1 : ℚ)) [] 0).getD k 0) ≤ 0) := by
    norm_num [sumR]
  have hrow : cholRow (fun x => x) (fun _ _ => 1) [] 0 = Except.ok [1] := by
    rw [cholRow, if_neg hcond, hoff]
    norm_num [sumR]
  have hch : cholRows (fun x => x) (fun _ _ => 1) 1 = Except.ok [[1]] := by
    rw [cholRows_succ]
    have h0 : cholRows (fun x => x) (fun _ _ => (1 : ℚ)) 0 = Except.ok [] := rfl
    rw [h0]
    simp only []
    rw [hrow]
    rfl
  refine ⟨claim_C5_trainer_failures.1 (fun x => x) [97] 0 0 [] (by decide),
    claim_C5_trainer_failures.2.1 (fun x => x) (fun _ _ => 1) 1 [[1]] hch 0 (by decide),
    claim_C5_trainer_failures.2.2 (fun x => x) [] _
      (claim_C5_trainer_failures.1 (fun x => x) [115, 99] 255 MODEL_VISEME_SIL [] (by decide))⟩

/-! ## C4: binary record round-trip -/

theorem flatMap_bytes_length (ws : List ℕ) :
    (ws.flatMap bytesOfWordLE).length = 4 * ws.length := by
  induction ws with
  | nil => rfl
  | cons w ws ih =>
      rw [List.flatMap_cons, List.length_append, ih, List.length_cons]
      simp [bytesOfWordLE]
      omega

theorem flatMap_bytes_getD (ws : List ℕ) :
    ∀ k r, k < ws.length → r < 4 →
      (ws.flatMap bytesOfWordLE).getD (4 * k + r) 0
        = (bytesOfWordLE (ws.getD k 0)).getD r 0 := by
  induction ws with
  | nil => intro k r hk _; exact absurd hk (by simp)
  | cons w ws ih =>
      intro k r hk hr
      rw [List.flatMap_cons]
      cases k with
      | zero =>
          rw [Nat.mul_zero, Nat.zero_add,
            List.getD_append _ _ _ _ (by simp [bytesOfWordLE]; omega)]
          rfl
      | succ k =>
          have hidx : 4 * (k + 1) + r = (bytesOfWordLE w).length + (4 * k + r) := by
            simp [bytesOfWordLE]
            omega
          rw [hidx, List.getD_append_right _ _ _ _ (by omega), Nat.add_sub_cancel_left]
          exact ih k r (by simpa using hk) hr

theorem readWordLE_flatMap (ws : List ℕ) (k : ℕ) (hk : k < ws.length)
    (hw : ws.getD k 0 < 2 ^ 32) :
    readWordLE (ws.flatMap bytesOfWordLE) (4 * k) = ws.getD k 0 := by
  unfold readWordLE
  have h0 := flatMap_bytes_getD ws k 0 hk (by omega)
  have h1 := flatMap_bytes_getD ws k 1 hk (by omega)
  have h2 := flatMap_bytes_getD ws k 2 hk (by omega)
  have h3 := flatMap_bytes_getD ws k 3 hk (by omega)
  rw [Nat.add_zero] at h0
  rw [h0, h1, h2, h3]
  simp only [bytesOfWordLE, List.getD_cons_zero, List.getD_cons_succ]
  omega

theorem readWordLE_append_right (l1 l2 : List ℕ) (off : ℕ) :
    readWordLE (l1 ++ l2) (l1.length + off) = readWordLE l2 off := by
  have e : ∀ r, (l1 ++ l2).getD (l1.length + off + r) 0 = l2.getD (off + r) 0 := by
    intro r
    rw [List.getD_append_right _ _ _ _ (by omega)]
    congr 1
    omega
  have e0 := e 0
  rw [Nat.add_zero, Nat.add_zero] at e0
  unfold readWordLE
  rw [e0, e 1, e 2, e 3]

theorem readWordLE_append_left (l1 l2 : List ℕ) (off : ℕ) (h : off + 3 < l1.length) :
    readWordLE (l1 ++ l2) off = readWordLE l1 off := by
  unfold readWordLE
  rw [List.getD_append _ _ _ _ (by omega), List.getD_append _ _ _ _ (by omega),
    List.getD_append _ _ _ _ (by omega), List.getD_append _ _ _ _ (by omega)]

theorem getD_range_map (l : List ℕ) :
    (List.range l.length).map (fun k => l.getD k 0) = l := by
  induction l with
  | nil => rfl
  | cons a l ih =>
      have hf : ((fun k => (a :: l).getD k 0) ∘ Nat.succ) = fun k => l.getD k 0 :=
        funext (fun k => rfl)
      rw [List.length_cons, List.range_succ_eq_map, List.map_cons, List.map_map, hf, ih]
      rfl

/-- The words stored at a 4-byte-aligned segment of a record are read
back verbatim: reading `n` little-endian words at offset `l1.length`
of `l1 ++ ws.flatMap bytesOfWordLE ++ rest` recovers `ws` when
`ws.length = n` and every word fits in 32 bits. -/
theorem readWordsLE_segment (l1 rest : List ℕ) (ws : List ℕ) (n : ℕ)
    (hn : ws.length = n) (hw : ∀ w ∈ ws, w < 2 ^ 32) :
    readWordsLE (l1 ++ (ws.flatMap bytesOfWordLE ++ rest)) l1.length n = ws := by
  unfold readWordsLE
  have hstep : ∀ k ∈ List.range n,
      readWordLE (l1 ++ (ws.flatMap bytesOfWordLE ++ rest)) (l1.length + 4 * k)
        = ws.getD k 0 := by
    intro k hkmem
    have hk : k < ws.length := by
      rw [hn]
      exact List.mem_range.mp hkmem
    rw [readWordLE_append_right l1 _ (4 * k),
      readWordLE_append_left _ _ _ (by rw [flatMap_bytes_length]; omega)]
    exact readWordLE_flatMap ws k hk
      (hw _ (by rw [List.getD_eq_getElem ws 0 hk]; exact List.getElem_mem hk))
  rw [List.map_congr_left hstep, ← hn, getD_range_map]

theorem readWordsLE_segment_last (l1 : List ℕ) (ws : List ℕ) (n : ℕ)
    (hn : ws.length = n) (hw : ∀ w ∈ ws, w < 2 ^ 32) :
    readWordsLE (l1 ++ ws.flatMap bytesOfWordLE) l1.length n = ws := by
  have h := readWordsLE_segment l1 [] ws n hn hw
  rwa [List.append_nil] at h

/-- C4, amended: encoding a prototype record and decoding it with
`decodeBinaryRecord` reproduces the group, the viseme and the exact
float32 words of `mu` and `sigmaInvLower`, and reproduces the phoneme
for every 1–2-code-point BMP phoneme whose second code point (when
present) is nonzero — a trailing `U+0000` code point is dropped by the
decoder's `ph2 == 0` test, which is the one correction to the claim. -/
theorem claim_C4_amended_roundtrip (cps : List ℕ) (g v : ℕ) (mu sig : List ℕ)
    (hcps : cps.length = 1 ∨ (cps.length = 2 ∧ cps.getD 1 0 ≠ 0))
    (hbmp : ∀ c ∈ cps, c < 2 ^ 16)
    (hg : g < 256) (hv : v < 256)
    (hmu : mu.length = RECORD_MU_LEN) (hmuw : ∀ w ∈ mu, w < 2 ^ 32)
    (hsig : sig.length = RECORD_SIGMAINVLOWER_LEN) (hsigw : ∀ w ∈ sig, w < 2 ^ 32) :
    decodeBinaryRecord (recordBin cps g v mu sig)
      = { phoneme := cps, group := g, viseme := v, muWords := mu, sigWords := sig } := by
  have hget : ∀ n, cps.getD n 0 < 2 ^ 16 := by
    intro n
    by_cases hn : n < cps.length
    · exact hbmp _ (by rw [List.getD_eq_getElem cps 0 hn]; exact List.getElem_mem hn)
    · rw [List.getD_eq_default cps 0 (by omega)]
      norm_num
  have hph1 := hget 0
  have hph2 := hget 1
  have hlt : cps.getD 0 0 * 2 ^ 16 + cps.getD 1 0 < 2 ^ 32 := by omega
  have hmod : (cps.getD 0 0 * 2 ^ 16 + cps.getD 1 0) % 2 ^ 32
      = cps.getD 0 0 * 2 ^ 16 + cps.getD 1 0 := Nat.mod_eq_of_lt hlt
  have hmuW : readWordsLE (recordBin cps g v mu sig) RECORD_MU_OFFSET RECORD_MU_LEN = mu := by
    have h1 : recordBin cps g v mu sig
        = (bytesOfUInt32BE ((cps.getD 0 0 * 2 ^ 16 + cps.getD 1 0) % 2 ^ 32)
            ++ [0, g % 256, 0, v % 256])
          ++ (mu.flatMap bytesOfWordLE ++ sig.flatMap bytesOfWordLE) := by
      simp [recordBin, List.append_assoc]
    have h2 : RECORD_MU_OFFSET
        = ((bytesOfUInt32BE ((cps.getD 0 0 * 2 ^ 16 + cps.getD 1 0) % 2 ^ 32)
            ++ [0, g % 256, 0, v % 256])).length := rfl
    rw [h1, h2]
    exact readWordsLE_segment _ _ mu RECORD_MU_LEN hmu hmuw
  have hsigW : readWordsLE (recordBin cps g v mu sig)
      RECORD_SIGMAINVLOWER_OFFSET RECORD_SIGMAINVLOWER_LEN = sig := by
    have h1 : recordBin cps g v mu sig
        = ((bytesOfUInt32BE ((cps.getD 0 0 * 2 ^ 16 + cps.getD 1 0) % 2 ^ 32)
            ++ [0, g % 256, 0, v % 256])
          ++ mu.flatMap bytesOfWordLE) ++ sig.flatMap bytesOfWordLE := by
      simp [recordBin, List.append_assoc]
    have h2 : RECORD_SIGMAINVLOWER_OFFSET
        = (((bytesOfUInt32BE ((cps.getD 0 0 * 2 ^ 16 + cps.getD 1 0) % 2 ^ 32)
            ++ [0, g % 256, 0, v % 256])
          ++ mu.flatMap bytesOfWordLE)).length := by
      rw [List.length_append, flatMap_bytes_length, hmu]
      rfl
    rw [h1, h2]
    exact readWordsLE_segment_last _ sig RECORD_SIGMAINVLOWER_LEN hsig hsigw
  have e0 : (recordBin cps g v mu sig).getD 0 0
      = (cps.getD 0 0 * 2 ^ 16 + cps.getD 1 0) % 2 ^ 32 / 2 ^ 24 % 256 := rfl
  have e1 : (recordBin cps g v mu sig).getD 1 0
      = (cps.getD 0 0 * 2 ^ 16 + cps.getD 1 0) % 2 ^ 32 / 2 ^ 16 % 256 := rfl
  have e2 : (recordBin cps g v mu sig).getD 2 0
      = (cps.getD 0 0 * 2 ^ 16 + cps.getD 1 0) % 2 ^ 32 / 2 ^ 8 % 256 := rfl
  have e3 : (recordBin cps g v mu sig).getD 3 0
      = (cps.getD 0 0 * 2 ^ 16 + cps.getD 1 0) % 2 ^ 32 % 256 := rfl
  have e5 : (recordBin cps g v mu sig).getD 5 0 = g % 256 := rfl
  have e7 : (recordBin cps g v mu sig).getD 7 0 = v % 256 := rfl
  have hb : 2 ^ 24 * (recordBin cps g v mu sig).getD 0 0
      + 2 ^ 16 * (recordBin cps g v mu sig).getD 1 0
      + 2 ^ 8 * (recordBin cps g v mu sig).getD 2 0
      + (recordBin cps g v mu sig).getD 3 0
      = cps.getD 0 0 * 2 ^ 16 + cps.getD 1 0 := by
    rw [e0, e1, e2, e3, hmod]
    omega
  simp only [decodeBinaryRecord]
  rw [DecodedRecord.mk.injEq]
  refine ⟨?_, by rw [e5]; exact Nat.mod_eq_of_lt hg, by rw [e7]; exact Nat.mod_eq_of_lt hv,
    hmuW, hsigW⟩
  rw [hb]
  have hdiv : (cps.getD 0 0 * 2 ^ 16 + cps.getD 1 0) / 2 ^ 16 = cps.getD 0 0 := by omega
  have hm16 : (cps.getD 0 0 * 2 ^ 16 + cps.getD 1 0) % 2 ^ 16 = cps.getD 1 0 := by omega
  rw [hdiv, hm16]
  rcases hcps with h1 | ⟨h2, hne⟩
  · obtain ⟨a, rfl⟩ := List.length_eq_one.mp h1
    simp
  · match cps, h2, hne with
    | [a, b], _, hne =>
        rw [if_neg hne]
        rfl

/-- Counterexample to C4 as stated: the phoneme "a\u0000" — two BMP code
points, the second being U+0000 — encodes to a packed header whose low
16 bits are zero, so the decoder's `ph2 == 0` test drops the second
code point and the round-trip returns the one-code-point phoneme "a". -/
theorem claim_C4_cex :
    (decodeBinaryRecord
        (recordBin [97, 0] 1 2 (List.replicate 12 0) (List.replicate 78 0))).phoneme = [97]
    ∧ [97] ≠ ([97, 0] : List ℕ)
    ∧ ([97, 0] : List ℕ).length = 2
    ∧ (97 : ℕ) < 2 ^ 16 ∧ (0 : ℕ) < 2 ^ 16
    ∧ (List.replicate 12 0).length = RECORD_MU_LEN
    ∧ (List.replicate 78 0).length = RECORD_SIGMAINVLOWER_LEN := by
  decide

theorem claim_C4_witness :
    decodeBinaryRecord (recordBin [945, 105] 3 7 (List.replicate 12 5) (List.replicate 78 9))
      = { phoneme := [945, 105], group := 3, viseme := 7,
          muWords := List.replicate 12 5, sigWords := List.replicate 78 9 } :=
  claim_C4_amended_roundtrip [945, 105] 3 7 (List.replicate 12 5) (List.replicate 78 9)
    (by decide) (by decide) (by decide) (by decide)
    (by decide) (by decide) (by decide) (by decide)

/-! ## C8: model loading and dimensionality -/

/-- C8, amended: after a successful fetch, `loadModel`'s slicing loop
performs no dimensionality check at all — it rejects (with
"Fetched model is empty") exactly the blobs shorter than one
`RECORD_OFFSET`-sized (D = 12) record, and slices every longer blob
into `⌊byteLength / RECORD_OFFSET⌋` records at the compiled-in record
size, whatever dimensionality the blob was written with. -/
theorem claim_C8_amended_loadmodel (bytes : List ℕ) :
    ((∃ e, loadModelSlice bytes = Except.error e) ↔ bytes.length < RECORD_OFFSET)
    ∧ (RECORD_OFFSET ≤ bytes.length →
        ∃ l, loadModelSlice bytes = Except.ok l
          ∧ l.length = bytes.length / RECORD_OFFSET) := by
  have hdiv0 : bytes.length / RECORD_OFFSET = 0 ↔ bytes.length < RECORD_OFFSET :=
    Nat.div_eq_zero_iff (by decide)
  unfold loadModelSlice
  simp only [List.length_map, List.length_range]
  by_cases h : bytes.length / RECORD_OFFSET = 0
  · rw [if_pos h]
    refine ⟨⟨fun _ => hdiv0.mp h, fun _ => ⟨("Fetched model is empty"), rfl⟩⟩, fun hge => ?_⟩
    exact absurd (hdiv0.mp h) (by omega)
  · rw [if_neg h]
    refine ⟨⟨fun he => ?_, fun hlt => absurd (hdiv0.mpr hlt) h⟩, fun _ => ⟨_, rfl, by simp⟩⟩
    obtain ⟨e, he⟩ := he
    exact Except.noConfusion he

set_option maxRecDepth 8192 in
/-- Counterexample to C8 as stated: a 632-byte blob is exactly two
records of a D = 11 model (`recordSizeBytes 11 = 316`), a dimensionality
that does not match the engine's D = 12 (`recordSizeBytes 12 = 368 =
RECORD_OFFSET`), and 632 is not even a multiple of the D = 12 record
size — yet `loadModel` does not fail: it slices the blob into one
(garbage) D = 12 record. -/
theorem claim_C8_cex :
    recordSizeBytes 11 = 316
    ∧ 2 * recordSizeBytes 11 = 632
    ∧ recordSizeBytes 11 ≠ recordSizeBytes 12
    ∧ recordSizeBytes 12 = RECORD_OFFSET
    ∧ ¬ (RECORD_OFFSET ∣ 632)
    ∧ loadModelSlice (List.replicate 632 0)
        = Except.ok [decodeBinaryRecord (List.replicate 632 0)] := by
  refine ⟨by decide, by decide, by decide, by decide, by decide, ?_⟩
  rfl

set_option maxRecDepth 8192 in
theorem claim_C8_witness :
    (∃ e, loadModelSlice (List.replicate 100 0) = Except.error e)
    ∧ (∃ l, loadModelSlice (List.replicate 736 0) = Except.ok l
        ∧ l.length = (List.replicate 736 0).length / RECORD_OFFSET) :=
  ⟨(claim_C8_amended_loadmodel (List.replicate 100 0)).1.mpr (by decide),
   (claim_C8_amended_loadmodel (List.replicate 736 0)).2 (by decide)⟩
